import Mathlib

/-
Verification of the `trie-rs` repository (src/trie.rs).

The source defines a trait `Trie<K, V>` with `get` and `insert`, and one
implementation `ElementaryTrie<KE, V>`: a tree of `ElementaryElement`
nodes, each holding an `Option<V>` payload and a `HashMap<KE, child>` of
children.  Keys are finite sequences of elements; `get` walks the tree
read-only, `insert` descends, creating missing nodes, then swaps the new
payload with the old one at the node reached and returns the old one.

The embedding below mirrors the source:
  - the `HashMap` of children is modelled as an association list with
    unique keys (`childGet` models `HashMap::get`, `childSet` models the
    write-back through `entry(k).or_insert(..)`);
  - `get_or_create_element` is the recursive descend-or-create walk of the
    source, rendered in store-passing style: the Rust function returns a
    mutable reference to the node reached, which the caller then mutates,
    so the embedding takes the caller's mutation as a function `f` applied
    at that node and threads the rebuilt tree back up;
  - `ElementaryTrie.get` is the read-only loop, `ElementaryTrie.insert`
    the payload swap through `get_or_create_element`.
-/

set_option linter.unusedSectionVars false

namespace TrieRs

/-- A node of the trie: `value` is the optional payload, `children` the
map from one key element to the owned child node (source: struct
`ElementaryElement`, fields `value: Option<V>` and
`children: HashMap<KE, ElementaryElement<KE, V>>`). -/
inductive ElementaryElement (KE V : Type) : Type where
  | mk (value : Option V) (children : List (KE × ElementaryElement KE V)) :
      ElementaryElement KE V

/-- The trie owns a single root node (source: struct `ElementaryTrie`). -/
structure ElementaryTrie (KE V : Type) : Type where
  root : ElementaryElement KE V

namespace ElementaryElement

variable {KE V : Type}

/-- Field accessor for the payload slot. -/
def value : ElementaryElement KE V → Option V
  | .mk v _ => v

/-- Field accessor for the children map. -/
def children : ElementaryElement KE V → List (KE × ElementaryElement KE V)
  | .mk _ c => c

@[simp] theorem value_mk (v : Option V) (c : List (KE × ElementaryElement KE V)) :
    (ElementaryElement.mk v c).value = v := rfl

@[simp] theorem children_mk (v : Option V) (c : List (KE × ElementaryElement KE V)) :
    (ElementaryElement.mk v c).children = c := rfl

theorem mk_value_children (e : ElementaryElement KE V) :
    ElementaryElement.mk e.value e.children = e := by
  cases e
  rfl

end ElementaryElement

variable {KE V : Type} [DecidableEq KE]

/-- Model of `HashMap::get` on the children map: the value stored under
key `k`, if any (keys in the list are unique, see `childKeys_nodup`
style invariants below; lookup returns the first match). -/
def childGet (l : List (KE × ElementaryElement KE V)) (k : KE) :
    Option (ElementaryElement KE V) :=
  match l with
  | [] => none
  | (k', e) :: rest => if k' = k then some e else childGet rest k

/-- Model of storing child `e` under key `k` in the children map: replaces
the existing binding if `k` is present, otherwise adds a new one.  This is
what the mutation through `entry(k).or_insert(..)` amounts to for the
`HashMap`. -/
def childSet (l : List (KE × ElementaryElement KE V)) (k : KE)
    (e : ElementaryElement KE V) : List (KE × ElementaryElement KE V) :=
  match l with
  | [] => [(k, e)]
  | (k', e') :: rest =>
      if k' = k then (k', e) :: rest else (k', e') :: childSet rest k e

/-- Source `ElementaryTrie::new_elementary_element`: a node with no
payload and no children. -/
def new_elementary_element : ElementaryElement KE V :=
  .mk none []

/-- Source `ElementaryTrie::new`: an empty trie, root with no payload and
no children. -/
def ElementaryTrie.new : ElementaryTrie KE V :=
  ⟨new_elementary_element⟩

/-- Source `ElementaryTrie::get_or_create_element`: descend from `element`
along `key`, creating a fresh empty child (`entry(k).or_insert(..)`)
wherever one is missing, and at the end of the key hand the node reached
to the caller.  The Rust function returns `&mut ElementaryElement`; here
the caller's use of that mutable reference is the function
`f : node → (mutated node, result)`, and the rebuilt tree is threaded back
up together with `f`'s result. -/
def get_or_create_element (element : ElementaryElement KE V) (key : List KE)
    (f : ElementaryElement KE V → ElementaryElement KE V × Option V) :
    ElementaryElement KE V × Option V :=
  match key with
  | [] => f element
  | k :: ks =>
      let child := (childGet element.children k).getD new_elementary_element
      let r := get_or_create_element child ks f
      (.mk element.value (childSet element.children k r.1), r.2)

/-- Source `ElementaryTrie::get` (body of the loop): walk from `element`
consuming one key element per step; stop with `None` as soon as a child is
missing; after the whole key, return the payload of the node reached. -/
def getElem_go (element : ElementaryElement KE V) (key : List KE) : Option V :=
  match key with
  | [] => element.value
  | k :: ks =>
      match childGet element.children k with
      | some e => getElem_go e ks
      | none => none

/-- Source `fn get(&self, key: K) -> Option<&V>` for `ElementaryTrie`. -/
def ElementaryTrie.get (t : ElementaryTrie KE V) (key : List KE) : Option V :=
  getElem_go t.root key

/-- Source `fn insert(&mut self, key: K, value: V) -> Option<V>`:
`mem::swap` the node's payload with `Some(value)` at the node returned by
`get_or_create_element`, and return the old payload. -/
def ElementaryTrie.insert (t : ElementaryTrie KE V) (key : List KE) (value : V) :
    ElementaryTrie KE V × Option V :=
  let r := get_or_create_element t.root key (fun e => (.mk (some value) e.children, e.value))
  (⟨r.1⟩, r.2)

mutual

/-- Number of nodes in the subtree rooted at a node (the node itself plus
all nodes of all its children).  Used to state the growth bound of
`insert`. -/
def countNodes : ElementaryElement KE V → Nat
  | .mk _ c => 1 + countChildren c

/-- Total number of nodes in the subtrees of a children map. -/
def countChildren : List (KE × ElementaryElement KE V) → Nat
  | [] => 0
  | (_, e) :: rest => countNodes e + countChildren rest

end

/-- Whether the whole path for `key` already exists below `element`, i.e.
the descent finds a child for every key element (so
`get_or_create_element` would create no node). -/
def pathExists (element : ElementaryElement KE V) (key : List KE) : Bool :=
  match key with
  | [] => true
  | k :: ks =>
      match childGet element.children k with
      | some e => pathExists e ks
      | none => false

/-- The `get` loop with the traversed state threaded explicitly: the loop
holds a cursor into the tree, and this rendering rebuilds the tree from
the nodes the cursor visited, so that preservation of the tree by `get`
is a provable statement rather than one true by construction. -/
def getElem_s (element : ElementaryElement KE V) (key : List KE) :
    Option V × ElementaryElement KE V :=
  match key with
  | [] => (element.value, element)
  | k :: ks =>
      match childGet element.children k with
      | some e =>
          let r := getElem_s e ks
          (r.1, .mk element.value (childSet element.children k r.2))
      | none => (none, element)

/-- The `get` loop instrumented with fuel: each loop iteration (one key
element consumed) spends one unit; `none` means the fuel ran out before
the loop finished.  Used to state that `get` completes within
`key.length` steps. -/
def getElem_fuel (fuel : Nat) (element : ElementaryElement KE V) (key : List KE) :
    Option (Option V) :=
  match key with
  | [] => some element.value
  | k :: ks =>
      match fuel with
      | 0 => none
      | fuel' + 1 =>
          match childGet element.children k with
          | some e => getElem_fuel fuel' e ks
          | none => some none

/-- `get_or_create_element` instrumented with fuel: each recursive call
(one key element consumed) spends one unit; `none` means the fuel ran out.
Used to state that `insert` completes within `key.length` steps. -/
def get_or_create_element_fuel (fuel : Nat) (element : ElementaryElement KE V)
    (key : List KE)
    (f : ElementaryElement KE V → ElementaryElement KE V × Option V) :
    Option (ElementaryElement KE V × Option V) :=
  match key with
  | [] => some (f element)
  | k :: ks =>
      match fuel with
      | 0 => none
      | fuel' + 1 =>
          let child := (childGet element.children k).getD new_elementary_element
          match get_or_create_element_fuel fuel' child ks f with
          | some r => some (.mk element.value (childSet element.children k r.1), r.2)
          | none => none

/-- Run a finite sequence of inserts, in order, on a fresh trie. -/
def runInserts (ops : List (List KE × V)) : ElementaryTrie KE V :=
  ops.foldl (fun t p => (t.insert p.1 p.2).1) ElementaryTrie.new

/-- Spec-side finite map, written from the spec's words, for the
refinement claim: lookup of `k` returns the value of the last insert in
`ops` whose key equals `k`, and nothing when no insert used key `k`. -/
def specMapLookup (ops : List (List KE × V)) (k : List KE) : Option V :=
  match ops with
  | [] => none
  | (k', v) :: rest =>
      match specMapLookup rest k with
      | some w => some w
      | none => if k' = k then some v else none

/-- The payload swap `insert` performs at the node reached, applied through
`get_or_create_element`: this is the element-level body of
`ElementaryTrie.insert`. -/
def insertE (e : ElementaryElement KE V) (key : List KE) (v : V) :
    ElementaryElement KE V × Option V :=
  get_or_create_element e key (fun n => (.mk (some v) n.children, n.value))

theorem insert_eq_insertE (t : ElementaryTrie KE V) (key : List KE) (v : V) :
    t.insert key v = (⟨(insertE t.root key v).1⟩, (insertE t.root key v).2) := rfl

@[simp] theorem childGet_nil (k : KE) :
    childGet ([] : List (KE × ElementaryElement KE V)) k = none := rfl

theorem childGet_cons (k' : KE) (e' : ElementaryElement KE V) (rest) (k : KE) :
    childGet ((k', e') :: rest) k = if k' = k then some e' else childGet rest k := rfl

theorem childSet_cons (k' : KE) (e' : ElementaryElement KE V) (rest) (k : KE) (e) :
    childSet ((k', e') :: rest) k e =
      if k' = k then (k', e) :: rest else (k', e') :: childSet rest k e := by
  by_cases h : k' = k <;> simp [childSet, h]

theorem childGet_childSet_same (l : List (KE × ElementaryElement KE V)) (k : KE)
    (e : ElementaryElement KE V) : childGet (childSet l k e) k = some e := by
  induction l with
  | nil => simp [childSet, childGet]
  | cons p rest ih =>
      obtain ⟨k', e'⟩ := p
      by_cases h : k' = k
      · simp [childSet, childGet, h]
      · simp [childSet, childGet, h, ih]

theorem childGet_childSet_ne (l : List (KE × ElementaryElement KE V)) (k k' : KE)
    (e : ElementaryElement KE V) (h : k' ≠ k) :
    childGet (childSet l k e) k' = childGet l k' := by
  induction l with
  | nil => simp [childSet, childGet, Ne.symm h]
  | cons p rest ih =>
      obtain ⟨k₀, e₀⟩ := p
      by_cases h0 : k₀ = k
      · subst h0
        simp [childSet, childGet, Ne.symm h]
      · simp [childSet, childGet, h0, ih]

theorem childSet_childGet_self (l : List (KE × ElementaryElement KE V)) (k : KE)
    (c : ElementaryElement KE V) (h : childGet l k = some c) : childSet l k c = l := by
  induction l with
  | nil => simp [childGet] at h
  | cons p rest ih =>
      obtain ⟨k₀, e₀⟩ := p
      by_cases h0 : k₀ = k
      · rw [childGet_cons, if_pos h0] at h
        obtain rfl : e₀ = c := by injection h
        simp [childSet, h0]
      · rw [childGet_cons, if_neg h0] at h
        simp [childSet, h0, ih h]

@[simp] theorem getElem_go_nil (e : ElementaryElement KE V) :
    getElem_go e [] = e.value := rfl

theorem getElem_go_cons (e : ElementaryElement KE V) (k : KE) (ks : List KE) :
    getElem_go e (k :: ks) =
      match childGet e.children k with
      | some c => getElem_go c ks
      | none => none := rfl

theorem getElem_go_new (key : List KE) :
    getElem_go (new_elementary_element : ElementaryElement KE V) key = none := by
  cases key <;> rfl

theorem get_new (key : List KE) :
    (ElementaryTrie.new : ElementaryTrie KE V).get key = none :=
  getElem_go_new key

theorem insertE_nil (e : ElementaryElement KE V) (v : V) :
    insertE e [] v = (.mk (some v) e.children, e.value) := rfl

theorem insertE_cons (e : ElementaryElement KE V) (k : KE) (ks : List KE) (v : V) :
    insertE e (k :: ks) v =
      (.mk e.value (childSet e.children k
        (insertE ((childGet e.children k).getD new_elementary_element) ks v).1),
       (insertE ((childGet e.children k).getD new_elementary_element) ks v).2) := rfl

/-- The old payload `insert` hands back is exactly what `get` would have
returned on the same key before the call. -/
theorem insertE_snd (e : ElementaryElement KE V) (key : List KE) (v : V) :
    (insertE e key v).2 = getElem_go e key := by
  induction key generalizing e with
  | nil => rfl
  | cons k ks ih =>
      rw [insertE_cons, getElem_go_cons]
      cases hc : childGet e.children k with
      | some c => simp [hc, ih]
      | none => simp [hc, ih, getElem_go_new]

/-- After an insert, lookup at the inserted key finds the new value. -/
theorem getElem_go_insertE_same (e : ElementaryElement KE V) (key : List KE) (v : V) :
    getElem_go (insertE e key v).1 key = some v := by
  induction key generalizing e with
  | nil => rfl
  | cons k ks ih =>
      rw [insertE_cons, getElem_go_cons]
      simp [childGet_childSet_same, ih]

/-- After an insert, lookup at any other key is unchanged. -/
theorem getElem_go_insertE_ne (e : ElementaryElement KE V) (key key' : List KE) (v : V)
    (h : key' ≠ key) :
    getElem_go (insertE e key v).1 key' = getElem_go e key' := by
  induction key generalizing e key' with
  | nil =>
      cases key' with
      | nil => exact absurd rfl h
      | cons k' ks' => rfl
  | cons k ks ih =>
      cases key' with
      | nil => rfl
      | cons k' ks' =>
          rw [insertE_cons, getElem_go_cons, getElem_go_cons]
          simp only [ElementaryElement.children_mk]
          by_cases hk : k' = k
          · subst hk
            have hks : ks' ≠ ks := fun hh => h (by rw [hh])
            cases hc : childGet e.children k' with
            | some c =>
                simp only [hc, Option.getD_some, childGet_childSet_same]
                exact ih c ks' hks
            | none =>
                simp only [hc, Option.getD_none, childGet_childSet_same]
                rw [ih _ _ hks]
                exact getElem_go_new ks'
          · rw [childGet_childSet_ne _ _ _ _ hk]

@[simp] theorem countNodes_mk (v : Option V) (c : List (KE × ElementaryElement KE V)) :
    countNodes (.mk v c : ElementaryElement KE V) = 1 + countChildren c := rfl

@[simp] theorem countChildren_nil :
    countChildren ([] : List (KE × ElementaryElement KE V)) = 0 := rfl

@[simp] theorem countChildren_cons (k : KE) (e : ElementaryElement KE V) (rest) :
    countChildren ((k, e) :: rest) = countNodes e + countChildren rest := rfl

theorem countNodes_eq (e : ElementaryElement KE V) :
    countNodes e = 1 + countChildren e.children := by
  cases e
  rfl

theorem countNodes_new : countNodes (new_elementary_element : ElementaryElement KE V) = 1 := rfl

theorem countChildren_childSet_none (l : List (KE × ElementaryElement KE V)) (k : KE)
    (e : ElementaryElement KE V) (h : childGet l k = none) :
    countChildren (childSet l k e) = countChildren l + countNodes e := by
  induction l with
  | nil => simp [childSet]
  | cons p rest ih =>
      obtain ⟨k₀, e₀⟩ := p
      rw [childGet_cons] at h
      by_cases h0 : k₀ = k
      · rw [if_pos h0] at h
        cases h
      · rw [if_neg h0] at h
        rw [childSet_cons, if_neg h0, countChildren_cons, countChildren_cons, ih h]
        omega

theorem countChildren_childSet_some (l : List (KE × ElementaryElement KE V)) (k : KE)
    (e c : ElementaryElement KE V) (h : childGet l k = some c) :
    countChildren (childSet l k e) + countNodes c = countChildren l + countNodes e := by
  induction l with
  | nil => cases h
  | cons p rest ih =>
      obtain ⟨k₀, e₀⟩ := p
      rw [childGet_cons] at h
      by_cases h0 : k₀ = k
      · rw [if_pos h0] at h
        obtain rfl : e₀ = c := by injection h
        rw [childSet_cons, if_pos h0, countChildren_cons, countChildren_cons]
        omega
      · rw [if_neg h0] at h
        rw [childSet_cons, if_neg h0, countChildren_cons, countChildren_cons]
        have := ih h
        omega

@[simp] theorem pathExists_nil (e : ElementaryElement KE V) : pathExists e [] = true := rfl

theorem pathExists_cons (e : ElementaryElement KE V) (k : KE) (ks : List KE) :
    pathExists e (k :: ks) =
      match childGet e.children k with
      | some c => pathExists c ks
      | none => false := rfl

/-- Inserting grows the tree by at most one node per key element. -/
theorem countNodes_insertE_le (e : ElementaryElement KE V) (key : List KE) (v : V) :
    countNodes (insertE e key v).1 ≤ countNodes e + key.length := by
  induction key generalizing e with
  | nil =>
      rw [insertE_nil, countNodes_eq e]
      simp
  | cons k ks ih =>
      rw [insertE_cons, countNodes_eq e]
      cases hc : childGet e.children k with
      | some c =>
          have hcount := countChildren_childSet_some e.children k (insertE c ks v).1 c hc
          have h2 := ih c
          simp only [hc, Option.getD_some, countNodes_mk, List.length_cons]
          omega
      | none =>
          have hcount := countChildren_childSet_none e.children k (insertE new_elementary_element ks v).1 hc
          have h2 := ih new_elementary_element
          rw [countNodes_new] at h2
          simp only [hc, Option.getD_none, countNodes_mk, List.length_cons]
          omega

/-- Inserting never removes a node. -/
theorem le_countNodes_insertE (e : ElementaryElement KE V) (key : List KE) (v : V) :
    countNodes e ≤ countNodes (insertE e key v).1 := by
  induction key generalizing e with
  | nil =>
      rw [insertE_nil, countNodes_eq e]
      simp
  | cons k ks ih =>
      rw [insertE_cons, countNodes_eq e]
      cases hc : childGet e.children k with
      | some c =>
          have hcount := countChildren_childSet_some e.children k (insertE c ks v).1 c hc
          have h2 := ih c
          simp only [hc, Option.getD_some, countNodes_mk]
          omega
      | none =>
          have hcount := countChildren_childSet_none e.children k (insertE new_elementary_element ks v).1 hc
          have h2 := ih new_elementary_element
          rw [countNodes_new] at h2
          simp only [hc, Option.getD_none, countNodes_mk]
          omega

/-- When the whole path already exists, inserting creates no node at all. -/
theorem countNodes_insertE_path (e : ElementaryElement KE V) (key : List KE) (v : V)
    (h : pathExists e key = true) :
    countNodes (insertE e key v).1 = countNodes e := by
  induction key generalizing e with
  | nil =>
      rw [insertE_nil, countNodes_eq e]
      simp
  | cons k ks ih =>
      rw [pathExists_cons] at h
      cases hc : childGet e.children k with
      | none => rw [hc] at h; cases h
      | some c =>
          rw [hc] at h
          rw [insertE_cons, countNodes_eq e]
          have hcount := countChildren_childSet_some e.children k (insertE c ks v).1 c hc
          have h2 := ih c h
          simp only [hc, Option.getD_some, countNodes_mk]
          omega

theorem getElem_s_nil (e : ElementaryElement KE V) : getElem_s e [] = (e.value, e) := rfl

theorem getElem_s_cons (e : ElementaryElement KE V) (k : KE) (ks : List KE) :
    getElem_s e (k :: ks) =
      match childGet e.children k with
      | some c => ((getElem_s c ks).1, .mk e.value (childSet e.children k (getElem_s c ks).2))
      | none => (none, e) := rfl

/-- The read-only walk hands back exactly the tree it started from. -/
theorem getElem_s_snd (e : ElementaryElement KE V) (key : List KE) :
    (getElem_s e key).2 = e := by
  induction key generalizing e with
  | nil => rfl
  | cons k ks ih =>
      rw [getElem_s_cons]
      cases hc : childGet e.children k with
      | none => rfl
      | some c =>
          simp only [ih]
          rw [childSet_childGet_self _ _ _ hc, ElementaryElement.mk_value_children]

/-- The state-threaded walk computes the same answer as `get`. -/
theorem getElem_s_fst (e : ElementaryElement KE V) (key : List KE) :
    (getElem_s e key).1 = getElem_go e key := by
  induction key generalizing e with
  | nil => rfl
  | cons k ks ih =>
      rw [getElem_s_cons, getElem_go_cons]
      cases hc : childGet e.children k with
      | none => rfl
      | some c => simp only [ih]

/-- `key.length` units of fuel suffice for the `get` loop: it consumes one
key element per iteration and never runs out. -/
theorem getElem_fuel_length (e : ElementaryElement KE V) (key : List KE) :
    getElem_fuel key.length e key = some (getElem_go e key) := by
  induction key generalizing e with
  | nil => rfl
  | cons k ks ih =>
      rw [getElem_go_cons]
      cases hc : childGet e.children k with
      | some c => simp [getElem_fuel, hc, ih]
      | none => simp [getElem_fuel, hc]

/-- `key.length` units of fuel suffice for `get_or_create_element`: it
consumes one key element per recursive call and never runs out. -/
theorem get_or_create_element_fuel_length (e : ElementaryElement KE V) (key : List KE)
    (f : ElementaryElement KE V → ElementaryElement KE V × Option V) :
    get_or_create_element_fuel key.length e key f = some (get_or_create_element e key f) := by
  induction key generalizing e with
  | nil => rfl
  | cons k ks ih =>
      simp [get_or_create_element_fuel, get_or_create_element, ih]

theorem get_insert_self (t : ElementaryTrie KE V) (k : List KE) (v : V) :
    ((t.insert k v).1).get k = some v :=
  getElem_go_insertE_same t.root k v

theorem get_insert_of_ne (t : ElementaryTrie KE V) (k : List KE) (v : V) (k' : List KE)
    (h : k' ≠ k) : ((t.insert k v).1).get k' = t.get k' :=
  getElem_go_insertE_ne t.root k k' v h

theorem insert_ret (t : ElementaryTrie KE V) (k : List KE) (v : V) :
    (t.insert k v).2 = t.get k :=
  insertE_snd t.root k v

/-- Two inserts at distinct keys commute, observably through `get`. -/
theorem get_insert_insert_comm (t : ElementaryTrie KE V) (k₁ k₂ : List KE) (v₁ v₂ : V)
    (k' : List KE) (h : k₁ ≠ k₂) :
    (((t.insert k₁ v₁).1.insert k₂ v₂).1).get k' =
      (((t.insert k₂ v₂).1.insert k₁ v₁).1).get k' := by
  by_cases h₁ : k' = k₁
  · subst h₁
    rw [get_insert_of_ne _ _ _ _ h, get_insert_self, get_insert_self]
  · by_cases h₂ : k' = k₂
    · subst h₂
      rw [get_insert_self, get_insert_of_ne _ _ _ _ (Ne.symm h), get_insert_self]
    · rw [get_insert_of_ne _ _ _ _ h₂, get_insert_of_ne _ _ _ _ h₁,
        get_insert_of_ne _ _ _ _ h₁, get_insert_of_ne _ _ _ _ h₂]

theorem specMapLookup_cons (k' : List KE) (v : V) (rest : List (List KE × V)) (k : List KE) :
    specMapLookup ((k', v) :: rest) k =
      match specMapLookup rest k with
      | some w => some w
      | none => if k' = k then some v else none := rfl

theorem specMapLookup_eq_none (ops : List (List KE × V)) (k : List KE) :
    specMapLookup ops k = none ↔ k ∉ ops.map Prod.fst := by
  induction ops with
  | nil => simp [specMapLookup]
  | cons p rest ih =>
      obtain ⟨k', v⟩ := p
      rw [specMapLookup_cons]
      cases hr : specMapLookup rest k with
      | some w =>
          rw [hr] at ih
          simp only [List.map_cons, List.mem_cons]
          have hk : k ∈ rest.map Prod.fst := by
            by_contra hh
            exact absurd (ih.mpr hh) (by simp)
          simp [hk]
      | none =>
          rw [hr] at ih
          have hk : k ∉ rest.map Prod.fst := ih.mp rfl
          by_cases hkk : k' = k
          · subst hkk
            simp
          · simp only [List.map_cons, List.mem_cons]
            simp [hkk, hk, Ne.symm hkk]

theorem specMapLookup_some_mem (ops : List (List KE × V)) (k : List KE) (v : V)
    (h : specMapLookup ops k = some v) : (k, v) ∈ ops := by
  induction ops with
  | nil => cases h
  | cons p rest ih =>
      obtain ⟨k', v'⟩ := p
      rw [specMapLookup_cons] at h
      cases hr : specMapLookup rest k with
      | some w =>
          rw [hr] at h
          obtain rfl : w = v := by injection h
          exact List.mem_cons_of_mem _ (ih hr)
      | none =>
          rw [hr] at h
          by_cases hkk : k' = k
          · rw [if_pos hkk] at h
            obtain rfl : v' = v := by injection h
            subst hkk
            exact List.mem_cons_self _ _
          · rw [if_neg hkk] at h
            cases h

theorem specMapLookup_of_mem (ops : List (List KE × V)) (k : List KE) (v : V)
    (hnd : (ops.map Prod.fst).Nodup) (hm : (k, v) ∈ ops) :
    specMapLookup ops k = some v := by
  induction ops with
  | nil => cases hm
  | cons p rest ih =>
      obtain ⟨k', v'⟩ := p
      rw [List.map_cons, List.nodup_cons] at hnd
      obtain ⟨hk', hnd'⟩ := hnd
      rw [specMapLookup_cons]
      rcases List.mem_cons.mp hm with heq | hmem
      · obtain ⟨rfl, rfl⟩ : k = k' ∧ v = v' := by
          injection heq with h1 h2
          exact ⟨h1, h2⟩
        rw [(specMapLookup_eq_none rest k).mpr hk']
        simp
      · rw [ih hnd' hmem]

/-- For a fixed set of bindings with pairwise-distinct keys, the spec-side
lookup is invariant under reordering of the inserts. -/
theorem specMapLookup_perm (ops₁ ops₂ : List (List KE × V)) (h : List.Perm ops₁ ops₂)
    (hnd : (ops₁.map Prod.fst).Nodup) (k : List KE) :
    specMapLookup ops₁ k = specMapLookup ops₂ k := by
  have hnd₂ : (ops₂.map Prod.fst).Nodup := (h.map Prod.fst).nodup hnd
  cases h₁ : specMapLookup ops₁ k with
  | some v =>
      exact (specMapLookup_of_mem ops₂ k v hnd₂ (h.subset (specMapLookup_some_mem ops₁ k v h₁))).symm
  | none =>
      have hk : k ∉ ops₁.map Prod.fst := (specMapLookup_eq_none ops₁ k).mp h₁
      have hk₂ : k ∉ ops₂.map Prod.fst := fun hm => hk ((h.map Prod.fst).mem_iff.mpr hm)
      exact ((specMapLookup_eq_none ops₂ k).mpr hk₂).symm

/-- Running a sequence of inserts from any starting trie: `get` afterwards
is the spec-side lookup when it hits, and the old `get` otherwise. -/
theorem get_foldl_insert (ops : List (List KE × V)) (t : ElementaryTrie KE V) (k : List KE) :
    (ops.foldl (fun t p => (t.insert p.1 p.2).1) t).get k =
      match specMapLookup ops k with
      | some v => some v
      | none => t.get k := by
  induction ops generalizing t with
  | nil => rfl
  | cons p rest ih =>
      obtain ⟨k₀, v₀⟩ := p
      rw [List.foldl_cons, ih, specMapLookup_cons]
      cases hr : specMapLookup rest k with
      | some w => simp
      | none =>
          by_cases hk : k₀ = k
          · subst hk
            simp [get_insert_self]
          · simp [hk, get_insert_of_ne t k₀ v₀ k (fun hh => hk hh.symm)]

/-- `get` after a run of inserts on a fresh trie is exactly the spec-side
finite-map lookup. -/
theorem get_runInserts (ops : List (List KE × V)) (k : List KE) :
    (runInserts ops).get k = specMapLookup ops k := by
  rw [runInserts, get_foldl_insert]
  cases hr : specMapLookup ops k with
  | some v => rfl
  | none => exact get_new k

/-- Claim C1: insert on a trie in which the key has never been inserted
returns none; a second insert at the same key returns the first value, and
`get` then sees only the newest value; in general, `insert` returns
exactly the payload stored at the node reached by the key before the
call, or none when that node had no payload. -/
theorem claim_C1 (ops : List (List KE × V)) (k : List KE) (v₁ v₂ : V)
    (t : ElementaryTrie KE V) (key : List KE) (v : V)
    (hk : k ∉ ops.map Prod.fst) :
    ((runInserts ops).insert k v₁).2 = none ∧
    ((((runInserts ops).insert k v₁).1).insert k v₂).2 = some v₁ ∧
    (((((runInserts ops).insert k v₁).1).insert k v₂).1).get k = some v₂ ∧
    (t.insert key v).2 = t.get key := by
  refine ⟨?_, ?_, ?_, insert_ret t key v⟩
  · rw [insert_ret, get_runInserts]
    exact (specMapLookup_eq_none ops k).mpr hk
  · rw [insert_ret, get_insert_self]
  · rw [get_insert_self]

theorem claim_C1_witness :
    ((runInserts ([] : List (List Char × Nat))).insert ['a'] 1).2 = none ∧
    ((((runInserts ([] : List (List Char × Nat))).insert ['a'] 1).1).insert ['a'] 2).2 = some 1 ∧
    (((((runInserts ([] : List (List Char × Nat))).insert ['a'] 1).1).insert ['a'] 2).1).get ['a'] = some 2 ∧
    ((ElementaryTrie.new : ElementaryTrie Char Nat).insert ['b'] 7).2 =
      (ElementaryTrie.new : ElementaryTrie Char Nat).get ['b'] :=
  claim_C1 [] ['a'] 1 2 ElementaryTrie.new ['b'] 7 (by decide)

/-- Claim C2: `get` on a key never inserted returns none, even when the
key shares a path with inserted keys; in particular inserting at a
two-element key leaves its one-element strict prefix absent while the
full key succeeds. -/
theorem claim_C2 (ops : List (List KE × V)) (k : List KE)
    (ops' : List (List KE × V)) (x y : KE) (v : V)
    (hk : k ∉ ops.map Prod.fst) (hx : [x] ∉ ops'.map Prod.fst) :
    (runInserts ops).get k = none ∧
    (((runInserts ops').insert [x, y] v).1).get [x] = none ∧
    (((runInserts ops').insert [x, y] v).1).get [x, y] = some v := by
  refine ⟨?_, ?_, get_insert_self _ _ _⟩
  · rw [get_runInserts]
    exact (specMapLookup_eq_none ops k).mpr hk
  · rw [get_insert_of_ne _ _ _ _ (by simp), get_runInserts]
    exact (specMapLookup_eq_none ops' [x]).mpr hx

theorem claim_C2_witness :
    (runInserts [(['a', 'b'], (3 : Nat))]).get ['a'] = none ∧
    (((runInserts ([] : List (List Char × Nat))).insert ['a', 'b'] 3).1).get ['a'] = none ∧
    (((runInserts ([] : List (List Char × Nat))).insert ['a', 'b'] 3).1).get ['a', 'b'] = some 3 :=
  claim_C2 [(['a', 'b'], 3)] ['a'] [] 'a' 'b' 3 (by decide) (by decide)

/-- Claim C3: the empty key is a valid key resolving to the root payload
and is independent of every non-empty key: after inserting at the empty
key, `get` at the empty key sees the value and `get` at any non-empty key
is unchanged. -/
theorem claim_C3 (t : ElementaryTrie KE V) (v : V) (k : List KE) (hk : k ≠ []) :
    ((t.insert [] v).1).get [] = some v ∧
    ((t.insert [] v).1).get k = t.get k :=
  ⟨get_insert_self t [] v, get_insert_of_ne t [] v k hk⟩

theorem claim_C3_witness :
    (((ElementaryTrie.new : ElementaryTrie Char Nat).insert [] 4).1).get [] = some 4 ∧
    (((ElementaryTrie.new : ElementaryTrie Char Nat).insert [] 4).1).get ['a'] =
      (ElementaryTrie.new : ElementaryTrie Char Nat).get ['a'] :=
  claim_C3 ElementaryTrie.new 4 ['a'] (by decide)

/-- Claim C4: a fresh trie is exactly one node — a root with no payload
and no children; the root persists in every state reachable by inserts
(`get` does not change the state), and `get` on a fresh trie is none for
every key. -/
theorem claim_C4 :
    (ElementaryTrie.new : ElementaryTrie KE V).root.value = none ∧
    (ElementaryTrie.new : ElementaryTrie KE V).root.children = [] ∧
    countNodes (ElementaryTrie.new : ElementaryTrie KE V).root = 1 ∧
    (∀ ops : List (List KE × V), 1 ≤ countNodes (runInserts ops).root) ∧
    (∀ k : List KE, (ElementaryTrie.new : ElementaryTrie KE V).get k = none) := by
  refine ⟨rfl, rfl, rfl, fun ops => ?_, fun k => get_new k⟩
  rw [countNodes_eq]
  omega

/-- Claim C5: for a fixed set of bindings with pairwise distinct keys,
inserting them in any order yields tries agreeing on `get` at every key;
two inserts at distinct keys commute observably through `get`; and at
equal keys the last insert wins. -/
theorem claim_C5 (ops₁ ops₂ : List (List KE × V)) (k : List KE)
    (t : ElementaryTrie KE V) (k₁ k₂ : List KE) (v₁ v₂ : V) (k' : List KE)
    (u : ElementaryTrie KE V) (kk : List KE) (w₁ w₂ : V)
    (hperm : List.Perm ops₁ ops₂) (hnd : (ops₁.map Prod.fst).Nodup) (hne : k₁ ≠ k₂) :
    (runInserts ops₁).get k = (runInserts ops₂).get k ∧
    (((t.insert k₁ v₁).1.insert k₂ v₂).1).get k' =
      (((t.insert k₂ v₂).1.insert k₁ v₁).1).get k' ∧
    (((u.insert kk w₁).1.insert kk w₂).1).get kk = some w₂ := by
  refine ⟨?_, get_insert_insert_comm t k₁ k₂ v₁ v₂ k' hne, get_insert_self _ _ _⟩
  rw [get_runInserts, get_runInserts]
  exact specMapLookup_perm ops₁ ops₂ hperm hnd k

theorem claim_C5_witness :
    (runInserts [(['a'], (1 : Nat)), (['b'], 2)]).get ['a'] =
      (runInserts [(['b'], (2 : Nat)), (['a'], 1)]).get ['a'] ∧
    ((((ElementaryTrie.new : ElementaryTrie Char Nat).insert ['a'] 1).1.insert ['b'] 2).1).get ['a'] =
      ((((ElementaryTrie.new : ElementaryTrie Char Nat).insert ['b'] 2).1.insert ['a'] 1).1).get ['a'] ∧
    ((((ElementaryTrie.new : ElementaryTrie Char Nat).insert ['c'] 8).1.insert ['c'] 9).1).get ['c'] = some 9 :=
  claim_C5 [(['a'], 1), (['b'], 2)] [(['b'], 2), (['a'], 1)] ['a']
    ElementaryTrie.new ['a'] ['b'] 1 2 ['a'] ElementaryTrie.new ['c'] 8 9
    (List.Perm.swap _ _ _) (by decide) (by decide)

/-- Claim C6: `get` is read-only — the state-threaded rendering of the
lookup loop hands back the tree it started from, computes the same answer
as `get`, and two consecutive lookups of the same key agree. -/
theorem claim_C6 (t : ElementaryTrie KE V) (key : List KE) :
    (getElem_s t.root key).2 = t.root ∧
    (getElem_s t.root key).1 = t.get key ∧
    (getElem_s (getElem_s t.root key).2 key).1 = (getElem_s t.root key).1 := by
  refine ⟨getElem_s_snd t.root key, getElem_s_fst t.root key, ?_⟩
  rw [getElem_s_snd]

/-- Claim C7: insert grows the tree by at most `key.length` nodes, by
exactly zero when the whole path already exists, and never removes a
node. -/
theorem claim_C7 (t : ElementaryTrie KE V) (k : List KE) (v : V) :
    countNodes ((t.insert k v).1).root ≤ countNodes t.root + k.length ∧
    (pathExists t.root k = true → countNodes ((t.insert k v).1).root = countNodes t.root) ∧
    countNodes t.root ≤ countNodes ((t.insert k v).1).root :=
  ⟨countNodes_insertE_le t.root k v,
   fun h => countNodes_insertE_path t.root k v h,
   le_countNodes_insertE t.root k v⟩

theorem claim_C7_witness :
    pathExists (((ElementaryTrie.new : ElementaryTrie Char Nat).insert ['a'] 1).1).root ['a'] = true ∧
    countNodes (((((ElementaryTrie.new : ElementaryTrie Char Nat).insert ['a'] 1).1).insert ['a'] 2).1).root =
      countNodes (((ElementaryTrie.new : ElementaryTrie Char Nat).insert ['a'] 1).1).root :=
  ⟨by decide,
   (claim_C7 ((ElementaryTrie.new : ElementaryTrie Char Nat).insert ['a'] 1).1 ['a'] 2).2.1 (by decide)⟩

/-- Claim C8: `get` and `insert` are total and complete within one step
per key element: with exactly `key.length` units of fuel the fueled
renderings of the `get` loop and of `get_or_create_element` finish
(return `some`) and agree with the functions themselves; absence is
reported only through the option result. -/
theorem claim_C8 (t : ElementaryTrie KE V) (k : List KE) (v : V) :
    getElem_fuel k.length t.root k = some (t.get k) ∧
    get_or_create_element_fuel k.length t.root k
        (fun e => (.mk (some v) e.children, e.value)) =
      some ((t.insert k v).1.root, (t.insert k v).2) := by
  refine ⟨getElem_fuel_length t.root k, ?_⟩
  rw [get_or_create_element_fuel_length]
  rfl

/-- Claim C9: frame property of insert — `get` at any key other than the
inserted one is unchanged by the insert. -/
theorem claim_C9 (t : ElementaryTrie KE V) (k : List KE) (v : V) (k' : List KE)
    (h : k' ≠ k) :
    ((t.insert k v).1).get k' = t.get k' :=
  get_insert_of_ne t k v k' h

theorem claim_C9_witness :
    ((((ElementaryTrie.new : ElementaryTrie Char Nat).insert ['a', 'b'] 5).1.insert ['a'] 7).1).get ['a', 'b'] =
      (((ElementaryTrie.new : ElementaryTrie Char Nat).insert ['a', 'b'] 5).1).get ['a', 'b'] :=
  claim_C9 (((ElementaryTrie.new : ElementaryTrie Char Nat).insert ['a', 'b'] 5).1) ['a'] 7
    ['a', 'b'] (by decide)

/-- Claim C10: refinement — after any finite sequence of inserts on a
fresh trie, `get` coincides with lookup in the spec-side finite map that
remembers, per key, the value of the last insert with that key. -/
theorem claim_C10 (ops : List (List KE × V)) (k : List KE) :
    (runInserts ops).get k = specMapLookup ops k :=
  get_runInserts ops k

end TrieRs
